import Mathlib

/-!
Shallow embedding of the WesPad text-transformation and versioning core:
the mutation engine (`src/utils/textManipulation.ts` and the task-list
variant of the same module), the per-tab history manager
(`src/hooks/useTabs.ts`), and the find/replace engine
(`src/hooks/useFindReplace.ts`).

Buffers are modelled as `List Char` (one element per UTF-16 code unit of the
JavaScript string); selection offsets are `Nat`, matching the DOM guarantee
`0 ≤ selectionStart ≤ selectionEnd ≤ value.length`.
-/

/-- The set accepted by JavaScript's `\s` class and by `String.prototype.trim`:
ASCII whitespace, NBSP, BOM and the Unicode space separators. -/
def isJsSpace (c : Char) : Bool :=
  c == ' ' || c == '\t' || c == '\n' || c == '\r' || c == '\x0b' || c == '\x0c' ||
  c == '\u00A0' || c == '\u1680' || (decide (0x2000 ≤ c.toNat) && decide (c.toNat ≤ 0x200A)) ||
  c == '\u2028' || c == '\u2029' || c == '\u202F' || c == '\u205F' || c == '\u3000' || c == '\uFEFF'

/-- JavaScript `value.substring(a, b)`: both indices are clamped to
`[0, length]` and swapped when `a > b`. -/
def jsSubstring (l : List Char) (a b : Nat) : List Char :=
  let a' := min a l.length
  let b' := min b l.length
  (l.take (max a' b')).drop (min a' b')

/-- JavaScript `String.prototype.trim`. -/
def jsTrim (l : List Char) : List Char :=
  ((l.dropWhile isJsSpace).reverse.dropWhile isJsSpace).reverse

/-- JavaScript `value.lastIndexOf(c, f)` for a single character: the largest
index `i ≤ f` with `value[i] = c` (a negative JS `fromIndex` is treated as 0,
which coincides with truncated `Nat` subtraction at the call sites). -/
def lastIndexOfFrom (l : List Char) (c : Char) : Nat → Option Nat
  | 0 => if l.get? 0 == some c then some 0 else none
  | n + 1 => if l.get? (n + 1) == some c then some (n + 1) else lastIndexOfFrom l c n

/-- JavaScript `value.indexOf(c, start)` for a single character. -/
def indexOfCharFrom (l : List Char) (c : Char) (start : Nat) : Option Nat :=
  (List.range l.length).find? fun i => decide (start ≤ i) && (l.get? i == some c)

/-- JavaScript `text.indexOf(q, start)` for a (nonempty) literal string `q`:
the least position `i ≥ start` where `q` occurs in `t`. -/
def firstMatchPos (t q : List Char) (start : Nat) : Option Nat :=
  (List.range (t.length + 1)).find? fun i => decide (start ≤ i) && q.isPrefixOf (t.drop i)

/-- JavaScript `text.lastIndexOf(q)` for a (nonempty) literal string `q`:
the greatest position where `q` occurs in `t`. -/
def lastMatchPos (t q : List Char) : Option Nat :=
  ((List.range (t.length + 1)).filter fun i => q.isPrefixOf (t.drop i)).getLast?

/-- JavaScript `content.split('\n')`. -/
def splitNl : List Char → List (List Char)
  | [] => [[]]
  | c :: r =>
    match splitNl r with
    | [] => [[c]]
    | h :: t => if c == '\n' then [] :: h :: t else (c :: h) :: t

/-- The `TextState` interface of `textManipulation.ts`
(`value`, `selectionStart`, `selectionEnd`). -/
structure TextState where
  value : List Char
  selectionStart : Nat
  selectionEnd : Nat
deriving DecidableEq, Repr

/-- The `MutationResult` interface of `textManipulation.ts`. -/
structure MutationResult where
  newValue : List Char
  newSelectionStart : Nat
  newSelectionEnd : Nat
  shouldPreventDefault : Bool
deriving DecidableEq, Repr

/-- Model of `AUTO_CLOSE_PAIRS` from `constants.ts`, as the opener-to-closer lookup. -/
def autoClosePairs (c : Char) : Option Char :=
  if c = '(' then some ')'
  else if c = '[' then some ']'
  else if c = '\x7b' then some '\x7d'
  else if c = '"' then some '"'
  else if c = '\x60' then some '\x60'
  else none

/-- Model of `Object.values(AUTO_CLOSE_PAIRS)`, in insertion order. -/
def autoCloseValues : List Char := [')', ']', '\x7d', '"', '\x60']

/-- Model of `handleTabIndentation`: two spaces replace the selection, caret collapses
after them. -/
def handleTabIndentation (s : TextState) : MutationResult :=
  ⟨s.value.take s.selectionStart ++ [' ', ' '] ++ s.value.drop s.selectionEnd,
   s.selectionStart + 2, s.selectionStart + 2, true⟩

/-- Model of `handleAutoClose`. -/
def handleAutoClose (s : TextState) (char : Char) : Option MutationResult :=
  match autoClosePairs char with
  | none => none
  | some closeChar =>
    if s.selectionStart ≠ s.selectionEnd then
      let selected := jsSubstring s.value s.selectionStart s.selectionEnd
      some ⟨s.value.take s.selectionStart ++ char :: (selected ++ closeChar :: s.value.drop s.selectionEnd),
            s.selectionStart + 1, s.selectionEnd + 1, true⟩
    else
      some ⟨s.value.take s.selectionStart ++ char :: closeChar :: s.value.drop s.selectionEnd,
            s.selectionStart + 1, s.selectionStart + 1, true⟩

/-- Model of `handleOvertype`: typing a known closing character that already sits at
the caret skips over it. -/
def handleOvertype (s : TextState) (char : Char) : Option MutationResult :=
  if autoCloseValues.contains char && (s.value.get? s.selectionStart == some char) then
    some ⟨s.value, s.selectionStart + 1, s.selectionStart + 1, true⟩
  else none

/-- Start of the line holding the caret:
`value.lastIndexOf('\n', selectionStart - 1) + 1`. -/
def currentLineStart (value : List Char) (selectionStart : Nat) : Nat :=
  match lastIndexOfFrom value '\n' (selectionStart - 1) with
  | some i => i + 1
  | none => 0

/-- The capture groups of the smart-list prefix regex
`^(\s*)([-*]|\d+\.|[-*]\s\[[ x]\])(\s+)`:
`indent` = group 1, `bullet` = group 2, `trail` = group 3. -/
structure ListItemMatch where
  indent : List Char
  bullet : List Char
  trail : List Char
deriving DecidableEq, Repr

/-- The regex `^(\s*)([-*]|\d+\.|[-*]\s\[[ x]\])(\s+)` with JavaScript's
leftmost-alternative backtracking semantics.  The third alternative
(`[-*]\s\[[ x]\]`, a task-list bullet) is kept even though the first
alternative `[-*]` shadows it: whenever a marker is followed by whitespace
the engine commits to `[-*]`, so the task alternative can never be chosen. -/
def listItemMatch (line : List Char) : Option ListItemMatch :=
  let ws := line.takeWhile isJsSpace
  let rest := line.drop ws.length
  let finish : List Char → List Char → Option ListItemMatch := fun bullet r =>
    let tr := r.takeWhile isJsSpace
    if tr.isEmpty then none else some ⟨ws, bullet, tr⟩
  let alt1 : Option ListItemMatch :=
    match rest with
    | m :: r => if m == '-' || m == '*' then finish [m] r else none
    | [] => none
  let alt2 : Option ListItemMatch :=
    let ds := rest.takeWhile Char.isDigit
    if ds.isEmpty then none
    else if rest.get? ds.length == some '.' then finish (ds ++ ['.']) (rest.drop (ds.length + 1))
    else none
  let alt3 : Option ListItemMatch :=
    match rest with
    | m :: w :: '[' :: b :: ']' :: r =>
      if (m == '-' || m == '*') && isJsSpace w && (b == ' ' || b == 'x') then
        finish [m, w, '[', b, ']'] r
      else none
    | _ => none
  alt1 <|> alt2 <|> alt3

/-- Model of `match[0].length` for a smart-list match. -/
def matchLen (m : ListItemMatch) : Nat :=
  m.indent.length + m.bullet.length + m.trail.length

/-- The anchored test `match[2].match(/^\d+\.$/)`. -/
def isOrderedBullet (b : List Char) : Bool :=
  let ds := b.takeWhile Char.isDigit
  !ds.isEmpty && b == ds ++ ['.']

/-- The unanchored search `match[2].match(/([-*])\s\[[ x]\]/)`, returning the
captured marker of the first position at which the pattern matches. -/
def taskBulletSearch : List Char → Option Char
  | m :: w :: '[' :: b :: ']' :: r =>
    if (m == '-' || m == '*') && isJsSpace w && (b == ' ' || b == 'x') then some m
    else taskBulletSearch (w :: '[' :: b :: ']' :: r)
  | _ :: r => taskBulletSearch r
  | [] => none

/-- Model of `parseInt` applied to a bullet of shape `digits ++ "."`. -/
def digitsValue (ds : List Char) : Nat :=
  ds.foldl (fun a c => a * 10 + (c.toNat - '0'.toNat)) 0

/-- Decimal digits of a natural number, for `` `${num + 1}.` ``. -/
def natDigits (n : Nat) : List Char :=
  (Nat.repr n).data

/-- The `nextBullet` computation of the task-list variant of
`handleSmartList`: ordered bullets are incremented; otherwise the (dead, see
`listItemMatch`) task-list rewrite is attempted; otherwise the bullet is
kept. -/
def nextBulletOf (m : ListItemMatch) : List Char :=
  if isOrderedBullet m.bullet then
    natDigits (digitsValue (m.bullet.takeWhile Char.isDigit) + 1) ++ ['.']
  else
    match taskBulletSearch m.bullet with
    | some mk => [mk, ' ', '[', ' ', ']']
    | none => m.bullet

/-- The current line (text between the previous newline and the caret). -/
def currentLineOf (s : TextState) : List Char :=
  jsSubstring s.value (currentLineStart s.value s.selectionStart) s.selectionStart

/-- Model of `handleSmartList` (the task-list variant of the module; the older variant
without the third regex alternative and without the task `nextBullet` branch
is extensionally equal, both branches being unreachable). -/
def handleSmartList (s : TextState) : Option MutationResult :=
  match listItemMatch (currentLineOf s) with
  | none => none
  | some m =>
    if (jsTrim ((currentLineOf s).drop (matchLen m))).isEmpty then
      some ⟨s.value.take (currentLineStart s.value s.selectionStart) ++ '\n' :: s.value.drop s.selectionStart,
            currentLineStart s.value s.selectionStart + 1,
            currentLineStart s.value s.selectionStart + 1, true⟩
    else
      let insertion := '\n' :: (m.indent ++ nextBulletOf m ++ m.trail)
      some ⟨s.value.take s.selectionStart ++ insertion ++ s.value.drop s.selectionEnd,
            s.selectionStart + insertion.length, s.selectionStart + insertion.length, true⟩

/-- Model of `handleSmartBackspace`: deleting an opener whose paired closer follows the
caret removes both.  The guard `AUTO_CLOSE_PAIRS[charToDelete] === nextChar`
is JavaScript strict equality over values that may be `undefined`
(out-of-range string indexing and missing-property lookup both yield
`undefined`, and `undefined === undefined` is `true`), so it is modelled as
equality of `Option Char`: at a caret at the end of the buffer with a
non-opener preceding character both sides are `none` and the function
produces a result that deletes the preceding character. -/
def handleSmartBackspace (s : TextState) : Option MutationResult :=
  if s.selectionStart = s.selectionEnd ∧ s.selectionStart > 0 then
    let charToDelete := s.value.get? (s.selectionStart - 1)
    let nextChar := s.value.get? s.selectionStart
    if (charToDelete.bind autoClosePairs) == nextChar then
      some ⟨s.value.take (s.selectionStart - 1) ++ s.value.drop (s.selectionStart + 1),
            s.selectionStart - 1, s.selectionStart - 1, true⟩
    else none
  else none

/-- Model of `value.substring(selectionStart, selectionEnd)`. -/
def selectedOf (s : TextState) : List Char :=
  jsSubstring s.value s.selectionStart s.selectionEnd

/-- Model of `value.substring(0, selectionStart)`. -/
def beforeOf (s : TextState) : List Char :=
  s.value.take s.selectionStart

/-- Model of `value.substring(selectionEnd)`. -/
def afterOf (s : TextState) : List Char :=
  s.value.drop s.selectionEnd

/-- First guard of `handleFormatWrapper`: the selected text itself starts and
ends with the wrapper and is at least twice its length. -/
def wrapSelCond (selectedText w : List Char) : Bool :=
  w.isPrefixOf selectedText && w.isSuffixOf selectedText &&
    decide (2 * w.length ≤ selectedText.length)

/-- Second guard of `handleFormatWrapper`: the context around the selection
carries the wrapper on both sides. -/
def wrapCtxCond (before after w : List Char) : Bool :=
  w.isSuffixOf before && w.isPrefixOf after

/-- Model of `handleFormatWrapper`: unwrap a wrapped selection, else unwrap a wrapped
context, else wrap. -/
def handleFormatWrapper (s : TextState) (wrapper : List Char) : MutationResult :=
  let selectedText := selectedOf s
  let before := beforeOf s
  let after := afterOf s
  if wrapSelCond selectedText wrapper then
    let newText := jsSubstring selectedText wrapper.length (selectedText.length - wrapper.length)
    ⟨before ++ newText ++ after, s.selectionStart, s.selectionStart + newText.length, true⟩
  else if wrapCtxCond before after wrapper then
    let newBefore := before.take (before.length - wrapper.length)
    let newAfter := after.drop wrapper.length
    ⟨newBefore ++ selectedText ++ newAfter,
     s.selectionStart - wrapper.length, s.selectionEnd - wrapper.length, true⟩
  else
    ⟨before ++ wrapper ++ selectedText ++ wrapper ++ after,
     s.selectionStart + wrapper.length, s.selectionEnd + wrapper.length, true⟩

/-- Model of `handleLink`. -/
def handleLink (s : TextState) : MutationResult :=
  let selectedText := selectedOf s
  if selectedText.isEmpty then
    ⟨s.value.take s.selectionStart ++ '[' :: ']' :: '(' :: ')' :: s.value.drop s.selectionEnd,
     s.selectionStart + 1, s.selectionStart + 1, true⟩
  else
    ⟨s.value.take s.selectionStart ++ '[' :: (selectedText ++ ']' :: '(' :: ')' :: s.value.drop s.selectionEnd),
     s.selectionStart + selectedText.length + 3, s.selectionStart + selectedText.length + 3, true⟩

/-- Model of `match[0].length` for the block-prefix grammar
`^(\s*)(#+\s|[-*]\s|\d+\.\s|>\s|[-*]\s\[[ x]\]\s)` with JavaScript's
leftmost-alternative semantics (the task alternative is again shadowed by
`[-*]\s`). -/
def prefixGrammarLen (line : List Char) : Option Nat :=
  let ws := line.takeWhile isJsSpace
  let rest := line.drop ws.length
  let alt1 : Option Nat :=
    let hs := rest.takeWhile (· == '#')
    if hs.isEmpty then none
    else if (rest.get? hs.length).any isJsSpace then some (ws.length + hs.length + 1)
    else none
  let alt2 : Option Nat :=
    match rest with
    | m :: w :: _ => if (m == '-' || m == '*') && isJsSpace w then some (ws.length + 2) else none
    | _ => none
  let alt3 : Option Nat :=
    let ds := rest.takeWhile Char.isDigit
    if ds.isEmpty then none
    else if rest.get? ds.length == some '.' && (rest.get? (ds.length + 1)).any isJsSpace then
      some (ws.length + ds.length + 2)
    else none
  let alt4 : Option Nat :=
    match rest with
    | '>' :: w :: _ => if isJsSpace w then some (ws.length + 2) else none
    | _ => none
  let alt5 : Option Nat :=
    match rest with
    | m :: w :: '[' :: b :: ']' :: w2 :: _ =>
      if (m == '-' || m == '*') && isJsSpace w && (b == ' ' || b == 'x') && isJsSpace w2 then
        some (ws.length + 6)
      else none
    | _ => none
  alt1 <|> alt2 <|> alt3 <|> alt4 <|> alt5

/-- Model of `toggleLinePrefix` (the prefix-stripping variant, canonical per the
design notes): applies or removes a block prefix on every line spanned by the
selection. -/
def toggleLinePrefix (s : TextState) (pfx : List Char) : MutationResult :=
  let firstLineStart := currentLineStart s.value s.selectionStart
  let lastLineEnd :=
    match indexOfCharFrom s.value '\n' s.selectionEnd with
    | some i => i
    | none => s.value.length
  let content := jsSubstring s.value firstLineStart lastLineEnd
  let lines := splitNl content
  let isAllTargetPrefixed := lines.all fun line => pfx.isPrefixOf line
  let newLines := lines.map fun line =>
    if isAllTargetPrefixed then line.drop pfx.length
    else
      match prefixGrammarLen line with
      | some n => pfx ++ line.drop n
      | none => pfx ++ line
  let newContent := List.intercalate ['\n'] newLines
  ⟨s.value.take firstLineStart ++ newContent ++ s.value.drop lastLineEnd,
   firstLineStart, firstLineStart + newContent.length, true⟩

/-- A `(content, selection)` selection pair (`{ start, end }` in
`useTabs.ts`; the `end` field is called `stop` here because `end` is a Lean
keyword). -/
structure Sel where
  start : Nat
  stop : Nat
deriving DecidableEq, Repr

/-- A history snapshot `{ content, selection }` of `useTabs.ts`. -/
structure HistoryEntry where
  content : List Char
  selection : Sel
deriving DecidableEq, Repr

/-- One tab's document state: live content and selection plus the history
list and cursor (`content`, `selection`, `history`, `historyIndex`). -/
structure Tab where
  content : List Char
  selection : Sel
  history : List HistoryEntry
  historyIndex : Nat
deriving DecidableEq, Repr

/-- Default used to totalise `history[i]`; the invariant `histInv` keeps all
accesses in bounds, matching the JavaScript code, which never indexes out of
range on well-formed tabs. -/
def emptyEntry : HistoryEntry := ⟨[], ⟨0, 0⟩⟩

/-- Model of `history[i]`. -/
def entryAt (h : List HistoryEntry) (i : Nat) : HistoryEntry :=
  (h.get? i).getD emptyEntry

/-- Model of `updateContent` of `useTabs.ts` with its debounce timer fired: the
immediate live update of `content`/`selection` (step 1) followed by the
debounced history snapshot (step 2) — duplicate-content commits push
nothing; otherwise the redo branch is truncated, the new entry appended, and
the front evicted past 50 entries. -/
def commitContent (t : Tab) (newContent : List Char) (sel : Sel) : Tab :=
  let t1 : Tab := { t with content := newContent, selection := sel }
  let history := t1.history
  let currentIndex := t1.historyIndex
  let currentHistoryItem := entryAt history currentIndex
  if currentHistoryItem.content = newContent then t1
  else
    let newHistory := history.take (currentIndex + 1) ++ [⟨newContent, t1.selection⟩]
    let newHistory2 := if newHistory.length > 50 then newHistory.tail else newHistory
    { t1 with history := newHistory2, historyIndex := newHistory2.length - 1 }

/-- Model of `undo` of `useTabs.ts` (the pending timer cancellation is implicit: a
cancelled debounce simply never runs, so it never appears in the sequential
model). -/
def undo (t : Tab) : Tab :=
  if t.historyIndex > 0 then
    let prevItem := entryAt t.history (t.historyIndex - 1)
    { t with content := prevItem.content, selection := prevItem.selection,
             historyIndex := t.historyIndex - 1 }
  else t

/-- Model of `redo` of `useTabs.ts`. -/
def redo (t : Tab) : Tab :=
  if t.historyIndex < t.history.length - 1 then
    let nextItem := entryAt t.history (t.historyIndex + 1)
    { t with content := nextItem.content, selection := nextItem.selection,
             historyIndex := t.historyIndex + 1 }
  else t

/-- Model of `n` successive `undo` calls. -/
def undoN : Nat → Tab → Tab
  | 0, t => t
  | n + 1, t => undoN n (undo t)

/-- A sequence of committed edits applied in order. -/
def commitList (t : Tab) (cs : List (List Char × Sel)) : Tab :=
  cs.foldl (fun u p => commitContent u p.1 p.2) t

/-- The document-history invariant: the cursor is in bounds and the entry
list never exceeds the 50-entry cap. -/
def histInv (t : Tab) : Prop :=
  t.historyIndex < t.history.length ∧ t.history.length ≤ 50

instance (t : Tab) : Decidable (histInv t) := by unfold histInv; infer_instance

/-- Each committed content differs from the content committed just before it
(so every commit in the sequence pushes a history entry). -/
def distinctFrom : List Char → List (List Char × Sel) → Bool
  | _, [] => true
  | prev, p :: rest => (p.1 != prev) && distinctFrom p.1 rest

/-- Outcome of `handleFindNext` in `useFindReplace.ts`: `found` carries the
`setSelectionRange` bounds; `noMatch` is the "No matches found" toast (the
selection is left untouched); `inapplicable` is the early return on an empty
query. -/
inductive FindOutcome where
  | found (start stop : Nat)
  | noMatch
  | inapplicable
deriving DecidableEq, Repr

/-- Model of `handleFindNext`: case-insensitive search from the selection end
(forward) or start (backward), wrapping around to the opposite end before
reporting no match. -/
def handleFindNext (text : List Char) (selectionStart selectionEnd : Nat)
    (query : List Char) (reverse : Bool) : FindOutcome :=
  if query.isEmpty then .inapplicable
  else
    let lowerText := text.map Char.toLower
    let lowerQuery := query.map Char.toLower
    let startPos := if reverse then selectionStart else selectionEnd
    let firstTry :=
      if reverse then lastMatchPos (lowerText.take startPos) lowerQuery
      else firstMatchPos lowerText lowerQuery startPos
    let nextIndex :=
      match firstTry with
      | some i => some i
      | none =>
        if reverse then lastMatchPos lowerText lowerQuery
        else firstMatchPos lowerText lowerQuery 0
    match nextIndex with
    | some i => .found i (i + query.length)
    | none => .noMatch

/-- Case-insensitive "occurs at the start" test, the per-position semantics
of the escaped, `gi`-flagged regex of `handleReplaceAll` (every regex
metacharacter of the query is escaped with `/[.*+?^$\x7b\x7d()|[\]\\]/g`, the
complete metacharacter set, so the pattern can only match the query
literally). -/
def ciStartsWith (q t : List Char) : Bool :=
  (q.map Char.toLower).isPrefixOf (t.map Char.toLower)

/-- The query occurs (case-insensitively) somewhere in the text. -/
def occursCI (q : List Char) : List Char → Bool
  | [] => ciStartsWith q []
  | c :: t => ciStartsWith q (c :: t) || occursCI q t

/-- The global-replace scan of `content.replace(regex, replace)` together
with the match count of `content.match(regex).length`: leftmost,
non-overlapping, case-insensitive literal matches, each advancing by the
query length (`$`-substitution patterns in the replacement string are not
modelled).  The first argument counts characters of a previous match still
to be consumed, so the recursion stays structural; the scan proper starts
with that counter at 0. -/
def scanReplace (find repl : List Char) : Nat → List Char → List Char × Nat
  | _, [] => ([], 0)
  | k + 1, _ :: rest => scanReplace find repl k rest
  | 0, c :: rest =>
    if find ≠ [] ∧ ciStartsWith find (c :: rest) = true then
      let r := scanReplace find repl (find.length - 1) rest
      (repl ++ r.1, r.2 + 1)
    else
      let r := scanReplace find repl 0 rest
      (c :: r.1, r.2)

/-- Model of `handleReplaceAll`: `none` models the early return on an empty query;
otherwise the new buffer content and the reported replacement count. -/
def handleReplaceAll (content find repl : List Char) : Option (List Char × Nat) :=
  if find.isEmpty then none
  else some (scanReplace find repl 0 content)

/-! ### Helper lemmas about the string primitives -/

theorem jsSubstring_of_le {v : List Char} {a b : Nat} (h1 : a ≤ b) (h2 : b ≤ v.length) :
    jsSubstring v a b = (v.take b).drop a := by
  unfold jsSubstring
  have ha : min a v.length = a := Nat.min_eq_left (le_trans h1 h2)
  have hb : min b v.length = b := Nat.min_eq_left h2
  simp only [ha, hb, Nat.max_eq_right h1, Nat.min_eq_left h1]

theorem jsSubstring_length {v : List Char} {a b : Nat} (h1 : a ≤ b) (h2 : b ≤ v.length) :
    (jsSubstring v a b).length = b - a := by
  rw [jsSubstring_of_le h1 h2]
  simp only [List.length_drop, List.length_take]
  omega

theorem value_decomp {v : List Char} {a b : Nat} (h1 : a ≤ b) (h2 : b ≤ v.length) :
    v.take a ++ jsSubstring v a b ++ v.drop b = v := by
  rw [jsSubstring_of_le h1 h2]
  have hta : v.take a = (v.take b).take a := by rw [List.take_take, Nat.min_eq_left h1]
  rw [hta, List.take_append_drop, List.take_append_drop]

theorem isPrefixOf_append_self (w l : List Char) : w.isPrefixOf (w ++ l) = true := by
  simp [List.isPrefixOf_iff_prefix]

theorem isSuffixOf_append_self (w l : List Char) : w.isSuffixOf (l ++ w) = true := by
  simp [List.isSuffixOf_iff_suffix]

/-! ### Helper lemmas about case-insensitive occurrence -/

theorem ciStartsWith_nil_eq_false {q : List Char} (h : q ≠ []) : ciStartsWith q [] = false := by
  cases q with
  | nil => exact absurd rfl h
  | cons a l => rfl

theorem occursCI_false_drop {q t : List Char} (h : occursCI q t = false) :
    ∀ i, ciStartsWith q (t.drop i) = false := by
  induction t with
  | nil => intro i; simpa [occursCI] using h
  | cons c t ih =>
    rw [occursCI, Bool.or_eq_false_iff] at h
    intro i
    cases i with
    | zero => exact h.1
    | succ k => exact ih h.2 k

theorem firstMatchPos_eq_none_of_not_occurs {q t : List Char}
    (h : occursCI q t = false) (start : Nat) :
    firstMatchPos (t.map Char.toLower) (q.map Char.toLower) start = none := by
  apply List.find?_eq_none.2
  intro i _
  have hdrop : (t.map Char.toLower).drop i = (t.drop i).map Char.toLower := by
    simp [List.map_drop]
  have hocc : ciStartsWith q (t.drop i) = false := occursCI_false_drop h i
  unfold ciStartsWith at hocc
  intro hcontra
  rw [Bool.and_eq_true] at hcontra
  have h2 := hcontra.2
  rw [hdrop, hocc] at h2
  exact Bool.noConfusion h2

/-! ### Helper lemmas about the history model -/

theorem entryAt_append_left {h₁ h₂ : List HistoryEntry} {i : Nat} (hi : i < h₁.length) :
    entryAt (h₁ ++ h₂) i = entryAt h₁ i := by
  unfold entryAt
  rw [List.get?_append hi]

theorem entryAt_concat_len {h : List HistoryEntry} {e : HistoryEntry} {i : Nat}
    (hi : i = h.length) : entryAt (h ++ [e]) i = e := by
  subst hi
  unfold entryAt
  rw [List.get?_append_right (le_refl _)]
  simp

/-- The tab is "clean": the history cursor sits on the last entry and that
entry mirrors the live content and selection (the state right after a
commit). -/
def cleanTab (t : Tab) : Prop :=
  t.historyIndex + 1 = t.history.length ∧
  t.content = (entryAt t.history t.historyIndex).content ∧
  t.selection = (entryAt t.history t.historyIndex).selection

theorem commitContent_spec (t : Tab) (c : List Char) (s : Sel)
    (hInv : histInv t)
    (hne : (entryAt t.history t.historyIndex).content ≠ c)
    (hcap : t.historyIndex + 2 ≤ 50) :
    commitContent t c s =
      Tab.mk c s (t.history.take (t.historyIndex + 1) ++ [⟨c, s⟩]) (t.historyIndex + 1) := by
  have hlen : (t.history.take (t.historyIndex + 1) ++ [(⟨c, s⟩ : HistoryEntry)]).length
      = t.historyIndex + 2 := by
    have := hInv.1
    simp only [List.length_append, List.length_take, List.length_cons, List.length_nil]
    omega
  simp only [commitContent]
  rw [if_neg hne]
  rw [if_neg (show ¬ (t.history.take (t.historyIndex + 1) ++ [(⟨c, s⟩ : HistoryEntry)]).length > 50 by
    rw [hlen]; omega)]
  rw [hlen]
  have h21 : t.historyIndex + 2 - 1 = t.historyIndex + 1 := by omega
  rw [h21]

theorem commitContent_clean_spec (t : Tab) (c : List Char) (s : Sel)
    (hInv : histInv t) (hTop : t.historyIndex + 1 = t.history.length)
    (hne : (entryAt t.history t.historyIndex).content ≠ c)
    (hcap : t.history.length + 1 ≤ 50) :
    commitContent t c s = Tab.mk c s (t.history ++ [⟨c, s⟩]) t.history.length := by
  rw [commitContent_spec t c s hInv hne (by omega), hTop, List.take_length]

theorem commitList_spec (cs : List (List Char × Sel)) :
    ∀ t : Tab, histInv t → cleanTab t →
      t.history.length + cs.length ≤ 50 →
      distinctFrom (entryAt t.history t.historyIndex).content cs = true →
      (commitList t cs).history = t.history ++ cs.map (fun p => HistoryEntry.mk p.1 p.2) ∧
      (commitList t cs).historyIndex = t.historyIndex + cs.length ∧
      histInv (commitList t cs) ∧ cleanTab (commitList t cs) := by
  induction cs with
  | nil =>
    intro t h1 h2 _ _
    refine ⟨by simp [commitList], by simp [commitList], ?_, ?_⟩
    · simpa [commitList] using h1
    · simpa [commitList] using h2
  | cons p rest ih =>
    intro t hInv hClean hCap hChain
    obtain ⟨c, s⟩ := p
    rw [distinctFrom, Bool.and_eq_true] at hChain
    have hne : (entryAt t.history t.historyIndex).content ≠ c :=
      fun h => (bne_iff_ne.mp hChain.1) h.symm
    have hlen1 : t.history.length + 1 ≤ 50 := by
      simp only [List.length_cons] at hCap; omega
    have hu : commitContent t c s = Tab.mk c s (t.history ++ [⟨c, s⟩]) t.history.length :=
      commitContent_clean_spec t c s hInv hClean.1 hne hlen1
    have hstep : commitList t ((c, s) :: rest) = commitList (commitContent t c s) rest := by
      simp [commitList]
    have hulen : (t.history ++ [(⟨c, s⟩ : HistoryEntry)]).length = t.history.length + 1 := by
      simp
    have huInv : histInv (commitContent t c s) := by
      rw [hu]
      exact ⟨by simp, by simp only [hulen]; omega⟩
    have htopu : entryAt (t.history ++ [(⟨c, s⟩ : HistoryEntry)]) t.history.length = ⟨c, s⟩ :=
      entryAt_concat_len rfl
    have huClean : cleanTab (commitContent t c s) := by
      rw [hu]
      exact ⟨by simp, by rw [htopu], by rw [htopu]⟩
    have huCap : (commitContent t c s).history.length + rest.length ≤ 50 := by
      rw [hu]
      simp only [hulen, List.length_cons] at hCap ⊢
      omega
    have huChain :
        distinctFrom (entryAt (commitContent t c s).history (commitContent t c s).historyIndex).content rest = true := by
      rw [hu]
      simpa [htopu] using hChain.2
    obtain ⟨ch, ci, cinv, cclean⟩ := ih (commitContent t c s) huInv huClean huCap huChain
    refine ⟨?_, ?_, by rwa [hstep], by rwa [hstep]⟩
    · rw [hstep, ch, hu]
      simp [List.append_assoc]
    · rw [hstep, ci, hu]
      have := hClean.1
      simp only [List.length_cons]
      omega

theorem undoN_spec : ∀ (n : Nat) (v : Tab), histInv v → n ≤ v.historyIndex →
    v.content = (entryAt v.history v.historyIndex).content →
    v.selection = (entryAt v.history v.historyIndex).selection →
    (undoN n v).content = (entryAt v.history (v.historyIndex - n)).content ∧
    (undoN n v).selection = (entryAt v.history (v.historyIndex - n)).selection := by
  intro n
  induction n with
  | zero => intro v _ _ h1 h2; simpa [undoN] using ⟨h1, h2⟩
  | succ k ih =>
    intro v hInv hle h1 h2
    have hpos : v.historyIndex > 0 := by omega
    have hc : (undo v).content = (entryAt v.history (v.historyIndex - 1)).content := by
      simp only [undo]; rw [if_pos hpos]
    have hs : (undo v).selection = (entryAt v.history (v.historyIndex - 1)).selection := by
      simp only [undo]; rw [if_pos hpos]
    have hh : (undo v).history = v.history := by
      simp only [undo]; rw [if_pos hpos]
    have hi : (undo v).historyIndex = v.historyIndex - 1 := by
      simp only [undo]; rw [if_pos hpos]
    have happ := ih (undo v)
      ⟨by rw [hi, hh]; have := hInv.1; omega, by rw [hh]; exact hInv.2⟩
      (by rw [hi]; omega) (by rw [hc, hh, hi]) (by rw [hs, hh, hi])
    rw [hh, hi] at happ
    have harith : v.historyIndex - 1 - k = v.historyIndex - (k + 1) := by omega
    rw [harith] at happ
    have hstep : undoN (k + 1) v = undoN k (undo v) := rfl
    rw [hstep]
    exact ⟨happ.1, happ.2⟩

theorem tail_concat {α : Type} (h : List α) (e : α) (hne : h ≠ []) :
    (h ++ [e]).tail = h.tail ++ [e] := by
  cases h with
  | nil => exact absurd rfl hne
  | cons a l => rfl

/-- Push shape of a non-duplicate commit, before the cap case split. -/
theorem commitContent_push (t : Tab) (c : List Char) (s : Sel)
    (hne : (entryAt t.history t.historyIndex).content ≠ c) :
    commitContent t c s =
      Tab.mk c s
        (if (t.history.take (t.historyIndex + 1) ++ [(⟨c, s⟩ : HistoryEntry)]).length > 50
         then (t.history.take (t.historyIndex + 1) ++ [(⟨c, s⟩ : HistoryEntry)]).tail
         else t.history.take (t.historyIndex + 1) ++ [(⟨c, s⟩ : HistoryEntry)])
        ((if (t.history.take (t.historyIndex + 1) ++ [(⟨c, s⟩ : HistoryEntry)]).length > 50
          then (t.history.take (t.historyIndex + 1) ++ [(⟨c, s⟩ : HistoryEntry)]).tail
          else t.history.take (t.historyIndex + 1) ++ [(⟨c, s⟩ : HistoryEntry)]).length - 1) := by
  simp only [commitContent]
  rw [if_neg hne]

/-- C3: the document-history invariant — at most 50 entries and an in-bounds
cursor — holds for a freshly created single-entry history and is preserved by
commit, undo and redo; a non-duplicate commit leaves the cursor on the newly
appended entry (the last entry), and a commit that pushes a full 50-entry
history past the cap evicts exactly the oldest entry from the front while the
cursor still points at the new last entry. -/
theorem history_bounds_invariant :
    (∀ c : List Char, histInv ⟨c, ⟨0, 0⟩, [⟨c, ⟨0, 0⟩⟩], 0⟩) ∧
    (∀ (t : Tab) (c : List Char) (s : Sel), histInv t → histInv (commitContent t c s)) ∧
    (∀ t : Tab, histInv t → histInv (undo t)) ∧
    (∀ t : Tab, histInv t → histInv (redo t)) ∧
    (∀ (t : Tab) (c : List Char) (s : Sel), histInv t →
      (entryAt t.history t.historyIndex).content ≠ c →
      entryAt (commitContent t c s).history (commitContent t c s).historyIndex = ⟨c, s⟩ ∧
      (commitContent t c s).historyIndex = (commitContent t c s).history.length - 1) ∧
    (∀ (t : Tab) (c : List Char) (s : Sel), histInv t → t.history.length = 50 →
      t.historyIndex = 49 → (entryAt t.history t.historyIndex).content ≠ c →
      (commitContent t c s).history = t.history.tail ++ [⟨c, s⟩] ∧
      (commitContent t c s).history.length = 50 ∧
      (commitContent t c s).historyIndex = 49) := by
  have htake_ne : ∀ (t : Tab), histInv t → t.history.take (t.historyIndex + 1) ≠ [] := by
    intro t hInv h
    have := congrArg List.length h
    simp only [List.length_take, List.length_nil] at this
    have := hInv.1
    omega
  refine ⟨?_, ?_, ?_, ?_, ?_, ?_⟩
  · intro c
    exact ⟨by simp, by simp⟩
  · intro t c s hInv
    by_cases hdup : (entryAt t.history t.historyIndex).content = c
    · simp only [commitContent]
      rw [if_pos hdup]
      exact hInv
    · rw [commitContent_push t c s hdup]
      have hlen : (t.history.take (t.historyIndex + 1) ++ [(⟨c, s⟩ : HistoryEntry)]).length
          = t.historyIndex + 2 := by
        have := hInv.1
        simp only [List.length_append, List.length_take, List.length_cons, List.length_nil]
        omega
      have h1 := hInv.1
      have h2 := hInv.2
      constructor
      · dsimp only
        split
        · rename_i hgt
          rw [hlen] at hgt
          simp only [List.length_tail, hlen]
          omega
        · rw [hlen]
          omega
      · dsimp only
        split
        · rename_i hgt
          rw [hlen] at hgt
          simp only [List.length_tail, hlen]
          omega
        · rename_i hle
          rw [hlen] at hle ⊢
          omega
  · intro t hInv
    by_cases hpos : t.historyIndex > 0
    · simp only [undo]
      rw [if_pos hpos]
      exact ⟨by have := hInv.1; dsimp only; omega, hInv.2⟩
    · simp only [undo]
      rw [if_neg hpos]
      exact hInv
  · intro t hInv
    by_cases hlt : t.historyIndex < t.history.length - 1
    · simp only [redo]
      rw [if_pos hlt]
      exact ⟨by dsimp only; omega, hInv.2⟩
    · simp only [redo]
      rw [if_neg hlt]
      exact hInv
  · intro t c s hInv hne
    rw [commitContent_push t c s hne]
    have htl : (t.history.take (t.historyIndex + 1)).length = t.historyIndex + 1 := by
      have := hInv.1
      simp only [List.length_take]
      omega
    have hlen : (t.history.take (t.historyIndex + 1) ++ [(⟨c, s⟩ : HistoryEntry)]).length
        = t.historyIndex + 2 := by
      simp only [List.length_append, htl, List.length_cons, List.length_nil]
    constructor
    · dsimp only
      split
      · have hne' := htake_ne t hInv
        rw [tail_concat _ _ hne']
        apply entryAt_concat_len
        simp only [List.length_append, List.length_tail, htl, List.length_cons, List.length_nil]
        omega
      · rw [hlen]
        exact entryAt_concat_len (by omega)
    · dsimp only
  · intro t c s hInv hlen50 hidx49 hne
    rw [commitContent_push t c s hne]
    have htake_all : t.history.take (t.historyIndex + 1) = t.history := by
      rw [hidx49, show (49 : Nat) + 1 = 50 from rfl, ← hlen50, List.take_length]
    have hne' : t.history ≠ [] := by
      intro h
      rw [h] at hlen50
      exact absurd hlen50 (by simp)
    have hcond : (t.history.take (t.historyIndex + 1) ++ [(⟨c, s⟩ : HistoryEntry)]).length > 50 := by
      rw [htake_all]
      simp only [List.length_append, hlen50, List.length_cons, List.length_nil]
      omega
    refine ⟨?_, ?_, ?_⟩
    · dsimp only
      rw [if_pos hcond, htake_all, tail_concat _ _ hne']
    · dsimp only
      rw [if_pos hcond, htake_all, tail_concat _ _ hne']
      simp only [List.length_append, List.length_tail, hlen50, List.length_cons, List.length_nil]
    · dsimp only
      rw [if_pos hcond, htake_all, tail_concat _ _ hne']
      simp only [List.length_append, List.length_tail, hlen50, List.length_cons, List.length_nil]

/-- Closed witness for `history_bounds_invariant` at a full 50-entry history:
committing new content onto entry 49 evicts the front entry and keeps the
cursor on the appended entry. -/
theorem history_bounds_invariant_witness :
    (commitContent ⟨['a'], ⟨0, 0⟩, List.replicate 50 emptyEntry, 49⟩ ['b'] ⟨1, 1⟩).history
      = (List.replicate 50 emptyEntry).tail ++ [⟨['b'], ⟨1, 1⟩⟩] ∧
    (commitContent ⟨['a'], ⟨0, 0⟩, List.replicate 50 emptyEntry, 49⟩ ['b'] ⟨1, 1⟩).history.length = 50 ∧
    (commitContent ⟨['a'], ⟨0, 0⟩, List.replicate 50 emptyEntry, 49⟩ ['b'] ⟨1, 1⟩).historyIndex = 49 :=
  history_bounds_invariant.2.2.2.2.2 ⟨['a'], ⟨0, 0⟩, List.replicate 50 emptyEntry, 49⟩ ['b'] ⟨1, 1⟩
    (by constructor <;> simp) (by simp) rfl (by decide)

/-- C2 counterexample: the claim "N commits followed by N undos return to the
state immediately after the first commit" already fails at N = 1 on a fresh
single-entry history: one commit of `"b"` over `"a"` followed by one undo
restores `"a"`, the state before the commit, not the committed `"b"`. -/
theorem commit_undo_roundtrip_counterexample :
    (undoN 1 (commitList ⟨['a'], ⟨0, 0⟩, [⟨['a'], ⟨0, 0⟩⟩], 0⟩ [(['b'], ⟨1, 1⟩)])).content ≠
      (commitContent ⟨['a'], ⟨0, 0⟩, [⟨['a'], ⟨0, 0⟩⟩], 0⟩ ['b'] ⟨1, 1⟩).content := by
  decide

/-- C2 (amended): for a well-formed history, N ≥ 1 commits whose contents
each differ from the previously committed content, staying within the
50-entry cap (no eviction), followed by N − 1 undo calls, bring the
document's content and selection back to their values immediately after the
first commit of the sequence (each undo steps back one committed state, so
N − 1 undos, not N, land on the first commit). -/
theorem commit_undo_roundtrip_amended (t : Tab) (c1 : List Char) (s1 : Sel)
    (rest : List (List Char × Sel))
    (hInv : histInv t)
    (h1 : (entryAt t.history t.historyIndex).content ≠ c1)
    (hchain : distinctFrom c1 rest = true)
    (hcap : t.historyIndex + 2 + rest.length ≤ 50) :
    (undoN rest.length (commitList t ((c1, s1) :: rest))).content =
      (commitContent t c1 s1).content ∧
    (undoN rest.length (commitList t ((c1, s1) :: rest))).selection =
      (commitContent t c1 s1).selection ∧
    (commitContent t c1 s1).content = c1 ∧
    (commitContent t c1 s1).selection = s1 := by
  have hidx := hInv.1
  have hu := commitContent_spec t c1 s1 hInv h1 (by omega)
  have htake_len : (t.history.take (t.historyIndex + 1)).length = t.historyIndex + 1 := by
    simp only [List.length_take]
    omega
  have hH1len : (t.history.take (t.historyIndex + 1) ++ [(⟨c1, s1⟩ : HistoryEntry)]).length
      = t.historyIndex + 2 := by
    simp only [List.length_append, htake_len, List.length_cons, List.length_nil]
  have hue : entryAt (t.history.take (t.historyIndex + 1) ++ [(⟨c1, s1⟩ : HistoryEntry)])
      (t.historyIndex + 1) = ⟨c1, s1⟩ := entryAt_concat_len htake_len.symm
  have huInv : histInv (commitContent t c1 s1) := by
    rw [hu]
    exact ⟨by dsimp only; rw [hH1len]; omega, by dsimp only; rw [hH1len]; omega⟩
  have huClean : cleanTab (commitContent t c1 s1) := by
    rw [hu]
    refine ⟨by dsimp only; rw [hH1len], ?_, ?_⟩
    · dsimp only
      rw [hue]
    · dsimp only
      rw [hue]
  have huCap : (commitContent t c1 s1).history.length + rest.length ≤ 50 := by
    rw [hu]
    dsimp only
    rw [hH1len]
    omega
  have huChain :
      distinctFrom (entryAt (commitContent t c1 s1).history
        (commitContent t c1 s1).historyIndex).content rest = true := by
    rw [hu]
    dsimp only
    rw [hue]
    exact hchain
  obtain ⟨hvh, hvi, hvInv, hvClean⟩ :=
    commitList_spec rest (commitContent t c1 s1) huInv huClean huCap huChain
  have hui : (commitContent t c1 s1).historyIndex = t.historyIndex + 1 := by rw [hu]
  have huh : (commitContent t c1 s1).history
      = t.history.take (t.historyIndex + 1) ++ [(⟨c1, s1⟩ : HistoryEntry)] := by rw [hu]
  rw [hui] at hvi
  rw [huh] at hvh
  have hstep : commitList t ((c1, s1) :: rest) = commitList (commitContent t c1 s1) rest := by
    simp [commitList]
  have hfin := undoN_spec rest.length (commitList (commitContent t c1 s1) rest) hvInv
    (by rw [hvi]; omega) hvClean.2.1 hvClean.2.2
  rw [hvh, hvi] at hfin
  have hsub : t.historyIndex + 1 + rest.length - rest.length = t.historyIndex + 1 := by omega
  rw [hsub] at hfin
  have hentry : entryAt ((t.history.take (t.historyIndex + 1) ++ [(⟨c1, s1⟩ : HistoryEntry)]) ++
      rest.map fun p => HistoryEntry.mk p.1 p.2) (t.historyIndex + 1) = ⟨c1, s1⟩ := by
    rw [entryAt_append_left (by rw [hH1len]; omega), hue]
  rw [hentry] at hfin
  refine ⟨?_, ?_, by rw [hu], by rw [hu]⟩
  · rw [hstep, hfin.1, hu]
  · rw [hstep, hfin.2, hu]

/-- Closed witness for `commit_undo_roundtrip_amended`: two commits
(`"b"` then `"c"`) followed by one undo restore content `"b"` and selection
`(1, 1)`, the state right after the first commit. -/
theorem commit_undo_roundtrip_amended_witness :
    (undoN 1 (commitList ⟨['a'], ⟨0, 0⟩, [⟨['a'], ⟨0, 0⟩⟩], 0⟩
        [(['b'], ⟨1, 1⟩), (['c'], ⟨2, 2⟩)])).content =
      (commitContent ⟨['a'], ⟨0, 0⟩, [⟨['a'], ⟨0, 0⟩⟩], 0⟩ ['b'] ⟨1, 1⟩).content ∧
    (undoN 1 (commitList ⟨['a'], ⟨0, 0⟩, [⟨['a'], ⟨0, 0⟩⟩], 0⟩
        [(['b'], ⟨1, 1⟩), (['c'], ⟨2, 2⟩)])).selection =
      (commitContent ⟨['a'], ⟨0, 0⟩, [⟨['a'], ⟨0, 0⟩⟩], 0⟩ ['b'] ⟨1, 1⟩).selection ∧
    (commitContent ⟨['a'], ⟨0, 0⟩, [⟨['a'], ⟨0, 0⟩⟩], 0⟩ ['b'] ⟨1, 1⟩).content = ['b'] ∧
    (commitContent ⟨['a'], ⟨0, 0⟩, [⟨['a'], ⟨0, 0⟩⟩], 0⟩ ['b'] ⟨1, 1⟩).selection = ⟨1, 1⟩ :=
  commit_undo_roundtrip_amended ⟨['a'], ⟨0, 0⟩, [⟨['a'], ⟨0, 0⟩⟩], 0⟩ ['b'] ⟨1, 1⟩
    [(['c'], ⟨2, 2⟩)] (by constructor <;> simp) (by decide) (by decide) (by decide)

/-- C1: evaluating `handleSmartList` at the failing input `"- [x] Done"`
(caret at the end).  The regex alternative `[-*]` matches `"- "` before the
task-list alternative can, so the continuation bullet is `"- "` — the
checkbox is dropped entirely rather than reset to `"[ ]"` as the code's own
comments ("Handle Task List (Respect user's bullet choice of - or *)") and
the specification intend. -/
theorem smartList_task_checkbox_dropped :
    handleSmartList ⟨"- [x] Done".data, 10, 10⟩ =
      some ⟨"- [x] Done\n- ".data, 13, 13, true⟩ ∧
    (handleSmartList ⟨"- [x] Done".data, 10, 10⟩).map (fun r => r.newValue) ≠
      some "- [x] Done\n- [ ] ".data := by
  constructor
  · decide
  · decide

/-- C4: when the current line (up to the caret) matches the list-prefix
grammar and the remainder after the prefix is empty or whitespace-only,
`handleSmartList` breaks out of the list: the bullet line up to the caret is
replaced by a single newline (so the bullet line becomes empty — the second
conjunct exhibits the newline at the line start), the caret collapses right
after that newline, and nothing else is inserted. -/
theorem smartList_breakout (s : TextState) (m : ListItemMatch)
    (hm : listItemMatch (currentLineOf s) = some m)
    (hempty : (jsTrim ((currentLineOf s).drop (matchLen m))).isEmpty = true)
    (hle : s.selectionStart ≤ s.value.length)
    (hcls : currentLineStart s.value s.selectionStart ≤ s.selectionStart) :
    handleSmartList s =
      some ⟨s.value.take (currentLineStart s.value s.selectionStart) ++
          '\n' :: s.value.drop s.selectionStart,
        currentLineStart s.value s.selectionStart + 1,
        currentLineStart s.value s.selectionStart + 1, true⟩ ∧
    (s.value.take (currentLineStart s.value s.selectionStart) ++
        '\n' :: s.value.drop s.selectionStart).get?
      (currentLineStart s.value s.selectionStart) = some '\n' := by
  constructor
  · simp only [handleSmartList, hm]
    rw [if_pos hempty]
  · have hlen : (s.value.take (currentLineStart s.value s.selectionStart)).length
        = currentLineStart s.value s.selectionStart := by
      simp only [List.length_take]
      omega
    rw [List.get?_append_right (le_of_eq hlen)]
    simp [hlen]

/-- Closed witness for `smartList_breakout` at the buffer `"- "` with the
caret at its end: the result is the bare newline with the caret after it. -/
theorem smartList_breakout_witness :
    handleSmartList ⟨"- ".data, 2, 2⟩ = some ⟨"\n".data, 1, 1, true⟩ := by
  have h := smartList_breakout ⟨"- ".data, 2, 2⟩ ⟨[], ['-'], [' ']⟩
    (by decide) (by decide) (by decide) (by decide)
  simpa using h.1

/-- C9: on a nonempty selection range, Indent deletes the selected text —
the result is the text before the selection, two spaces, and the text from
the selection end onward (the length equation witnesses that the selected
characters are gone), with the caret collapsed to `selectionStart + 2`. -/
theorem tabIndent_replaces_selection (s : TextState)
    (h1 : s.selectionStart < s.selectionEnd) (h2 : s.selectionEnd ≤ s.value.length) :
    (handleTabIndentation s).newValue =
      s.value.take s.selectionStart ++ [' ', ' '] ++ s.value.drop s.selectionEnd ∧
    (handleTabIndentation s).newValue.length + (s.selectionEnd - s.selectionStart) =
      s.value.length + 2 ∧
    (handleTabIndentation s).newSelectionStart = s.selectionStart + 2 ∧
    (handleTabIndentation s).newSelectionEnd = s.selectionStart + 2 ∧
    (handleTabIndentation s).shouldPreventDefault = true := by
  refine ⟨rfl, ?_, rfl, rfl, rfl⟩
  simp only [handleTabIndentation, List.length_append, List.length_take, List.length_drop,
    List.length_cons, List.length_nil]
  omega

/-- Closed witness for `tabIndent_replaces_selection` on `"abcd"` with the
range `[1, 3)` selected: `"bc"` disappears and the caret lands at 3. -/
theorem tabIndent_replaces_selection_witness :
    (handleTabIndentation ⟨"abcd".data, 1, 3⟩).newValue =
      "abcd".data.take 1 ++ [' ', ' '] ++ "abcd".data.drop 3 ∧
    (handleTabIndentation ⟨"abcd".data, 1, 3⟩).newValue.length + (3 - 1) =
      "abcd".data.length + 2 ∧
    (handleTabIndentation ⟨"abcd".data, 1, 3⟩).newSelectionStart = 1 + 2 ∧
    (handleTabIndentation ⟨"abcd".data, 1, 3⟩).newSelectionEnd = 1 + 2 ∧
    (handleTabIndentation ⟨"abcd".data, 1, 3⟩).shouldPreventDefault = true :=
  tabIndent_replaces_selection ⟨"abcd".data, 1, 3⟩ (by decide) (by decide)

/-- C10: when the typed character is a known closing character and the
character at `selectionStart` equals it, overtype-skip returns the buffer
text unchanged with the selection collapsed to `selectionStart + 1`; no
constraint is placed on `selectionEnd`, so this holds even when the
selection is a nonempty range — the selected text is neither replaced nor
removed. -/
theorem overtype_skip_preserves_text (s : TextState) (char : Char)
    (hc : autoCloseValues.contains char = true)
    (hat : s.value.get? s.selectionStart = some char) :
    handleOvertype s char =
      some ⟨s.value, s.selectionStart + 1, s.selectionStart + 1, true⟩ := by
  have hcond : (autoCloseValues.contains char &&
      (s.value.get? s.selectionStart == some char)) = true := by
    rw [hc, hat]
    simp
  simp only [handleOvertype, hcond, if_true]

/-- Closed witness for `overtype_skip_preserves_text` on `"x)y"` with the
range `[1, 3)` selected and `')'` typed: the text survives unchanged. -/
theorem overtype_skip_preserves_text_witness :
    handleOvertype ⟨"x)y".data, 1, 3⟩ ')' = some ⟨"x)y".data, 2, 2, true⟩ :=
  overtype_skip_preserves_text ⟨"x)y".data, 1, 3⟩ ')' (by decide) (by decide)

/-- Model of `shouldPreventDefault` of an optional mutation result, `true` when no
result is produced. -/
def consumedOk : Option MutationResult → Bool
  | none => true
  | some r => r.shouldPreventDefault

/-- C8: every Mutation Engine function that returns a `MutationResult` marks
the triggering event as consumed — `shouldPreventDefault` is `true` on every
produced result of all eight operations. -/
theorem mutation_results_always_consumed :
    ∀ (s : TextState) (c : Char) (w p : List Char),
      (handleTabIndentation s).shouldPreventDefault = true ∧
      consumedOk (handleAutoClose s c) = true ∧
      consumedOk (handleOvertype s c) = true ∧
      consumedOk (handleSmartList s) = true ∧
      consumedOk (handleSmartBackspace s) = true ∧
      (handleFormatWrapper s w).shouldPreventDefault = true ∧
      (handleLink s).shouldPreventDefault = true ∧
      ( toggleLinePrefix s p).shouldPreventDefault = true := by
  intro s c w p
  refine ⟨rfl, ?_, ?_, ?_, ?_, ?_, ?_, rfl⟩
  · cases h : autoClosePairs c with
    | none => simp [handleAutoClose, h, consumedOk]
    | some cc =>
      simp only [handleAutoClose, h]
      split <;> rfl
  · simp only [handleOvertype]
    split <;> rfl
  · cases h : listItemMatch (currentLineOf s) with
    | none => simp [handleSmartList, h, consumedOk]
    | some m =>
      simp only [handleSmartList, h]
      split <;> rfl
  · simp only [handleSmartBackspace]
    repeat' split
    all_goals rfl
  · simp only [handleFormatWrapper]
    repeat' split
    all_goals rfl
  · simp only [handleLink]
    split <;> rfl

/-- C7: forward `handleFindNext` reports `noMatch` — leaving the selection
untouched, since only the `found` outcome carries a `setSelectionRange` —
exactly when the query occurs nowhere case-insensitively; when nothing
matches at or after the selection end but something matches from the start,
the search wraps around and selects the first occurrence; in particular
searching `"abc"` from the end of `"ABC xyz"` wraps to the occurrence at
position 0. -/
theorem findNext_wraps_and_reports_noMatch :
    (∀ (text : List Char) (a b : Nat) (q : List Char), q ≠ [] →
      occursCI q text = false →
      handleFindNext text a b q false = FindOutcome.noMatch) ∧
    (∀ (text : List Char) (a b : Nat) (q : List Char) (j : Nat), q ≠ [] →
      firstMatchPos (text.map Char.toLower) (q.map Char.toLower) b = none →
      firstMatchPos (text.map Char.toLower) (q.map Char.toLower) 0 = some j →
      handleFindNext text a b q false = FindOutcome.found j (j + q.length)) ∧
    handleFindNext "ABC xyz".data 7 7 "abc".data false = FindOutcome.found 0 3 := by
  refine ⟨?_, ?_, by decide⟩
  · intro text a b q hq hocc
    have hqe : q.isEmpty = false := by
      cases q with
      | nil => exact absurd rfl hq
      | cons x l => rfl
    have h1 := firstMatchPos_eq_none_of_not_occurs hocc b
    have h2 := firstMatchPos_eq_none_of_not_occurs hocc 0
    simp [handleFindNext, hqe, h1, h2]
  · intro text a b q j hq hb h0
    have hqe : q.isEmpty = false := by
      cases q with
      | nil => exact absurd rfl hq
      | cons x l => rfl
    simp [handleFindNext, hqe, hb, h0]

/-- Closed witness for `findNext_wraps_and_reports_noMatch`: searching
`"ab"` in `"xyz"` reports no match. -/
theorem findNext_wraps_and_reports_noMatch_witness :
    handleFindNext "xyz".data 0 0 "ab".data false = FindOutcome.noMatch :=
  findNext_wraps_and_reports_noMatch.1 "xyz".data 0 0 "ab".data
    (by decide) (by decide)

theorem scanReplace_zero_iff (find repl : List Char) (hne : find ≠ []) :
    ∀ content, ((scanReplace find repl 0 content).2 = 0 ↔ occursCI find content = false) ∧
      ((scanReplace find repl 0 content).2 = 0 → (scanReplace find repl 0 content).1 = content) := by
  intro content
  induction content with
  | nil =>
    refine ⟨?_, fun _ => rfl⟩
    simp only [scanReplace, occursCI]
    rw [ciStartsWith_nil_eq_false hne]
    simp
  | cons c rest ih =>
    by_cases hm : ciStartsWith find (c :: rest) = true
    · have hstep : scanReplace find repl 0 (c :: rest) =
          (repl ++ (scanReplace find repl (find.length - 1) rest).1,
           (scanReplace find repl (find.length - 1) rest).2 + 1) := by
        simp only [scanReplace]
        rw [if_pos ⟨hne, hm⟩]
      rw [hstep]
      refine ⟨?_, ?_⟩
      · dsimp only
        constructor
        · intro h
          exact absurd h (by omega)
        · intro h
          rw [occursCI, hm] at h
          simp at h
      · intro h
        dsimp only at h
        exact absurd h (by omega)
    · have hm' : ciStartsWith find (c :: rest) = false := by
        cases hx : ciStartsWith find (c :: rest)
        · rfl
        · exact absurd hx hm
      have hstep : scanReplace find repl 0 (c :: rest) =
          (c :: (scanReplace find repl 0 rest).1, (scanReplace find repl 0 rest).2) := by
        simp only [scanReplace]
        rw [if_neg (fun hc => hm hc.2)]
      rw [hstep]
      refine ⟨?_, ?_⟩
      · dsimp only
        rw [occursCI, hm', Bool.false_or]
        exact ih.1
      · intro h
        dsimp only at h ⊢
        rw [ih.2 h]

/-- C6: the escaped, case-insensitive global replace, modelled as literal
case-insensitive matching (the escape set `[.*+?^$\x7b\x7d()|[\]\\]` neutralises
every regex metacharacter): `replaceAll("a", "b")` on `"banana"` reports
count 3 and yields `"bbnbnb"`, and in general the reported count is 0 —
a reportable outcome with the buffer left unchanged, not an error — exactly
when the query occurs nowhere in the buffer case-insensitively. -/
theorem replaceAll_escaped_ci_global :
    handleReplaceAll "banana".data "a".data "b".data = some ("bbnbnb".data, 3) ∧
    (∀ (content find repl : List Char), find ≠ [] →
      (((scanReplace find repl 0 content).2 = 0) ↔ occursCI find content = false) ∧
      ((scanReplace find repl 0 content).2 = 0 →
        (scanReplace find repl 0 content).1 = content)) := by
  refine ⟨by decide, ?_⟩
  intro content find repl hne
  exact scanReplace_zero_iff find repl hne content

/-- Closed witness for `replaceAll_escaped_ci_global`: searching `"q"` in
`"hi"` yields count 0 and leaves the buffer unchanged. -/
theorem replaceAll_escaped_ci_global_witness :
    (((scanReplace "q".data "r".data 0 "hi".data).2 = 0) ↔
      occursCI "q".data "hi".data = false) ∧
    ((scanReplace "q".data "r".data 0 "hi".data).2 = 0 →
      (scanReplace "q".data "r".data 0 "hi".data).1 = "hi".data) :=
  replaceAll_escaped_ci_global.2 "hi".data "q".data "r".data (by decide)

/-- C5: when the first application of the format wrapper actually wraps
(neither unwrap guard fires), applying the toggle again with the same
wrapper on the resulting selection restores the original text exactly, and
the selection bounds return to their original values (the outward `+w` shift
of the wrap and the inward `-w` shift of the context unwrap cancel). -/
theorem formatWrapper_wrap_then_unwrap (s : TextState) (w : List Char)
    (hab : s.selectionStart ≤ s.selectionEnd) (hbl : s.selectionEnd ≤ s.value.length)
    (h1 : wrapSelCond (selectedOf s) w = false)
    (h2 : wrapCtxCond (beforeOf s) (afterOf s) w = false) :
    (handleFormatWrapper ⟨(handleFormatWrapper s w).newValue,
        (handleFormatWrapper s w).newSelectionStart,
        (handleFormatWrapper s w).newSelectionEnd⟩ w).newValue = s.value ∧
    (handleFormatWrapper ⟨(handleFormatWrapper s w).newValue,
        (handleFormatWrapper s w).newSelectionStart,
        (handleFormatWrapper s w).newSelectionEnd⟩ w).newSelectionStart = s.selectionStart ∧
    (handleFormatWrapper ⟨(handleFormatWrapper s w).newValue,
        (handleFormatWrapper s w).newSelectionStart,
        (handleFormatWrapper s w).newSelectionEnd⟩ w).newSelectionEnd = s.selectionEnd := by
  have hblen : (beforeOf s).length = s.selectionStart := by
    simp only [beforeOf, List.length_take]
    omega
  have hslen : (selectedOf s).length = s.selectionEnd - s.selectionStart := by
    unfold selectedOf
    exact jsSubstring_length hab hbl
  have halen : (afterOf s).length = s.value.length - s.selectionEnd := by
    simp only [afterOf, List.length_drop]
  have hr1 : handleFormatWrapper s w =
      ⟨beforeOf s ++ w ++ selectedOf s ++ w ++ afterOf s,
       s.selectionStart + w.length, s.selectionEnd + w.length, true⟩ := by
    simp only [handleFormatWrapper, h1, h2, Bool.false_eq_true, if_false]
  rw [hr1]
  have hv2a : beforeOf s ++ w ++ selectedOf s ++ w ++ afterOf s
      = (beforeOf s ++ w) ++ (selectedOf s ++ (w ++ afterOf s)) := by
    simp [List.append_assoc]
  have hv2b : beforeOf s ++ w ++ selectedOf s ++ w ++ afterOf s
      = ((beforeOf s ++ w) ++ selectedOf s) ++ (w ++ afterOf s) := by
    simp [List.append_assoc]
  have hbefore2 : beforeOf ⟨beforeOf s ++ w ++ selectedOf s ++ w ++ afterOf s,
      s.selectionStart + w.length, s.selectionEnd + w.length⟩ = beforeOf s ++ w := by
    unfold beforeOf
    show (beforeOf s ++ w ++ selectedOf s ++ w ++ afterOf s).take (s.selectionStart + w.length)
      = beforeOf s ++ w
    rw [hv2a]
    exact List.take_left' (by simp [hblen])
  have hafter2 : afterOf ⟨beforeOf s ++ w ++ selectedOf s ++ w ++ afterOf s,
      s.selectionStart + w.length, s.selectionEnd + w.length⟩ = w ++ afterOf s := by
    unfold afterOf
    show (beforeOf s ++ w ++ selectedOf s ++ w ++ afterOf s).drop (s.selectionEnd + w.length)
      = w ++ afterOf s
    rw [hv2b]
    exact List.drop_left' (by simp [hblen, hslen]; omega)
  have hsel2 : selectedOf ⟨beforeOf s ++ w ++ selectedOf s ++ w ++ afterOf s,
      s.selectionStart + w.length, s.selectionEnd + w.length⟩ = selectedOf s := by
    unfold selectedOf
    show jsSubstring (beforeOf s ++ w ++ selectedOf s ++ w ++ afterOf s)
      (s.selectionStart + w.length) (s.selectionEnd + w.length) = selectedOf s
    rw [jsSubstring_of_le (by omega)
      (by simp only [List.length_append, hblen, hslen, halen]; omega)]
    rw [hv2b, List.take_left' (by simp only [List.length_append, hblen, hslen]; omega)]
    exact List.drop_left' (by simp [hblen])
  have hcond2 : wrapCtxCond (beforeOf s ++ w) (w ++ afterOf s) w = true := by
    unfold wrapCtxCond
    rw [isSuffixOf_append_self, isPrefixOf_append_self]
    rfl
  have hr2 : handleFormatWrapper ⟨beforeOf s ++ w ++ selectedOf s ++ w ++ afterOf s,
      s.selectionStart + w.length, s.selectionEnd + w.length⟩ w =
      ⟨(beforeOf s ++ w).take ((beforeOf s ++ w).length - w.length) ++ selectedOf s ++
        (w ++ afterOf s).drop w.length,
       s.selectionStart + w.length - w.length, s.selectionEnd + w.length - w.length, true⟩ := by
    simp only [handleFormatWrapper, hbefore2, hafter2, hsel2, h1, hcond2,
      Bool.false_eq_true, if_false, if_true]
  rw [hr2]
  have htake : (beforeOf s ++ w).take ((beforeOf s ++ w).length - w.length) = beforeOf s := by
    have hl : (beforeOf s ++ w).length - w.length = (beforeOf s).length := by
      simp only [List.length_append]
      omega
    rw [hl]
    exact List.take_left _ _
  have hdrop : (w ++ afterOf s).drop w.length = afterOf s := List.drop_left _ _
  refine ⟨?_, by dsimp only; omega, by dsimp only; omega⟩
  dsimp only
  rw [htake, hdrop]
  exact value_decomp hab hbl

/-- Closed witness for `formatWrapper_wrap_then_unwrap`: wrapping the caret
in `"ab"` at position 1 with `"**"` and toggling again restores `"ab"` with
the caret back at 1. -/
theorem formatWrapper_wrap_then_unwrap_witness :
    (handleFormatWrapper ⟨(handleFormatWrapper ⟨"ab".data, 1, 1⟩ "**".data).newValue,
        (handleFormatWrapper ⟨"ab".data, 1, 1⟩ "**".data).newSelectionStart,
        (handleFormatWrapper ⟨"ab".data, 1, 1⟩ "**".data).newSelectionEnd⟩ "**".data).newValue
      = "ab".data ∧
    (handleFormatWrapper ⟨(handleFormatWrapper ⟨"ab".data, 1, 1⟩ "**".data).newValue,
        (handleFormatWrapper ⟨"ab".data, 1, 1⟩ "**".data).newSelectionStart,
        (handleFormatWrapper ⟨"ab".data, 1, 1⟩ "**".data).newSelectionEnd⟩ "**".data).newSelectionStart
      = 1 ∧
    (handleFormatWrapper ⟨(handleFormatWrapper ⟨"ab".data, 1, 1⟩ "**".data).newValue,
        (handleFormatWrapper ⟨"ab".data, 1, 1⟩ "**".data).newSelectionStart,
        (handleFormatWrapper ⟨"ab".data, 1, 1⟩ "**".data).newSelectionEnd⟩ "**".data).newSelectionEnd
      = 1 :=
  formatWrapper_wrap_then_unwrap ⟨"ab".data, 1, 1⟩ "**".data
    (by decide) (by decide) (by decide) (by decide)
